import Mathlib

/-!
A verification development for the hedge middleware and timeout wrapper of
this repository.

The hedge crate's library sources (Histogram, RotatingHistogram, Policy and
the Hedge race protocol) are not part of the available sources; only their
test-suite (lib/hedge/tests/hedge.rs) is.  Those components are therefore
modelled from the specification, and every such definition is marked
`Modelled from the spec:` in its doc comment.  The timeout wrapper
(src/timeout.rs) is available and is embedded directly.

Durations are measured in integral units (milliseconds for the hedge part,
whole seconds plus subsecond nanoseconds for the timeout part, mirroring
Rust's std::time::Duration).
-/

/-- Modelled from the spec: the concrete histogram bucket boundaries used by
the hedge constructor are not in the available sources; the spec only asks
for fixed, strictly increasing bounds, "e.g., geometric buckets from ~1 ms
to tens of seconds".  Bounds are in milliseconds. -/
def defaultBounds : List Nat := [1, 10, 100, 1000, 10000]

/-- Modelled from the spec: a fixed-bucket latency counter.  "An ordered
sequence of buckets, each identified by an upper-bound latency value, each
holding a monotonically increasing sample count."  Each list element is the
pair (upper bound, count). -/
structure Histogram where
  buckets : List (Nat × Nat)
deriving DecidableEq

/-- Modelled from the spec: a histogram over the given bucket upper bounds,
every count zero. -/
def Histogram.new (bounds : List Nat) : Histogram :=
  ⟨bounds.map (fun b => (b, 0))⟩

/-- Modelled from the spec: "add(duration) increments the count of the
smallest bucket whose upper bound is ≥ duration (a duration exceeding the
largest bucket increments that bucket)." -/
def addAux : List (Nat × Nat) → Nat → List (Nat × Nat)
  | [], _ => []
  | [(b, c)], _ => [(b, c + 1)]
  | (b, c) :: p :: rest, d =>
      if d ≤ b then (b, c + 1) :: p :: rest
      else (b, c) :: addAux (p :: rest) d

/-- Modelled from the spec: record one latency sample. -/
def Histogram.add (h : Histogram) (d : Nat) : Histogram :=
  ⟨addAux h.buckets d⟩

/-- Sum of the counts of a bucket list. -/
def sumCounts (l : List (Nat × Nat)) : Nat :=
  (l.map Prod.snd).sum

/-- Total number of recorded samples. -/
def Histogram.totalCount (h : Histogram) : Nat :=
  sumCounts h.buckets

/-- Modelled from the spec: scan the buckets in order, accumulating the
cumulative count, and return the upper bound of the first bucket whose
cumulative count over the total reaches the requested quantile. -/
def quantileAux (total : Nat) (q : ℚ) : Nat → List (Nat × Nat) → Option Nat
  | _, [] => none
  | acc, (b, c) :: rest =>
      if q ≤ ((acc + c : Nat) : ℚ) / (total : ℚ) then some b
      else quantileAux total q (acc + c) rest

/-- Modelled from the spec: "quantile(q) for q in (0,1]: returns the upper
bound of the smallest bucket such that the cumulative count through that
bucket divided by the total count is ≥ q; returns a sentinel unknown
(`none`) when total count is zero." -/
def Histogram.quantile (h : Histogram) (q : ℚ) : Option Nat :=
  if h.totalCount = 0 then none
  else quantileAux h.totalCount q 0 h.buckets

/-- Record a whole sequence of samples, in order. -/
def Histogram.addAll (h : Histogram) (ds : List Nat) : Histogram :=
  ds.foldl Histogram.add h

/-- The read histogram populated by the test-suite's populate_histogram:
8 samples of 1 ms and 2 samples of 10 ms. -/
def populatedReadHistogram : Histogram :=
  (Histogram.new defaultBounds).addAll
    (List.replicate 8 1 ++ List.replicate 2 10)

/-- The concrete quantile computation on the populated read histogram. -/
theorem populated_quantile_eq :
    populatedReadHistogram.quantile (9/10) = some 10 := by
  have hb : populatedReadHistogram.buckets =
      [(1, 8), (10, 2), (100, 0), (1000, 0), (10000, 0)] := by decide
  simp only [Histogram.quantile, Histogram.totalCount, hb, sumCounts]
  norm_num [quantileAux]

/-- C5: For a histogram populated with exactly 8 samples of 1 ms and 2
samples of 10 ms, quantile(0.9) returns 10 ms: the cumulative fraction
through the 1 ms bucket is 8/10 < 0.9, through the 10 ms bucket it is
10/10 ≥ 0.9, so 10 ms is the smallest bucket whose cumulative count over
the total reaches 0.9. -/
theorem threshold_correctness :
    populatedReadHistogram.totalCount = 10 ∧
    sumCounts (populatedReadHistogram.buckets.take 1) = 8 ∧
    sumCounts (populatedReadHistogram.buckets.take 2) = 10 ∧
    ((8 : ℚ) / 10 < 9/10) ∧ (9/10 ≤ (10 : ℚ) / 10) ∧
    populatedReadHistogram.quantile (9/10) = some 10 :=
  ⟨by decide, by decide, by decide, by norm_num, by norm_num, populated_quantile_eq⟩

/-- Modelled from the spec: set every bucket count back to zero, keeping the
bucket bounds. -/
def Histogram.clear (h : Histogram) : Histogram :=
  ⟨h.buckets.map (fun p => (p.1, 0))⟩

/-- Modelled from the spec: "exactly two Histogram instances, tagged write
and read". -/
structure RotatingHistogram where
  write : Histogram
  read : Histogram
deriving DecidableEq

/-- Modelled from the spec: "add(duration) always targets the current write
histogram." -/
def RotatingHistogram.add (r : RotatingHistogram) (d : Nat) : RotatingHistogram :=
  { r with write := r.write.add d }

/-- Modelled from the spec: "rotate() swaps the roles and resets the new
write histogram's counts to zero, discarding its prior (stale read)
data." -/
def RotatingHistogram.rotate (r : RotatingHistogram) : RotatingHistogram :=
  { write := r.read.clear, read := r.write }

theorem totalCount_clear (h : Histogram) : h.clear.totalCount = 0 := by
  simp only [Histogram.clear, Histogram.totalCount, sumCounts]
  induction h.buckets with
  | nil => rfl
  | cons p rest ih => simpa using ih

/-- C7: starting from a RotatingHistogram whose write histogram holds zero
samples, rotating twice yields a read histogram with zero samples after each
of the two rotations: the first rotation moves the empty write histogram
into the read role, and the second moves in the cleared former read
histogram, so no counts leak across rotations. -/
theorem rotation_idempotence (r : RotatingHistogram)
    (h : r.write.totalCount = 0) :
    r.rotate.read.totalCount = 0 ∧ r.rotate.rotate.read.totalCount = 0 := by
  constructor
  · simpa [RotatingHistogram.rotate] using h
  · simpa [RotatingHistogram.rotate] using totalCount_clear r.read

/-- Witness for C7 at a concrete rotating histogram whose write side is
empty and whose read side holds ten stale samples. -/
theorem rotation_idempotence_witness :
    (RotatingHistogram.mk (Histogram.new defaultBounds) populatedReadHistogram).write.totalCount = 0 ∧
    ((RotatingHistogram.mk (Histogram.new defaultBounds) populatedReadHistogram).rotate.read.totalCount = 0 ∧
     (RotatingHistogram.mk (Histogram.new defaultBounds) populatedReadHistogram).rotate.rotate.read.totalCount = 0) :=
  ⟨by decide,
   rotation_idempotence (RotatingHistogram.mk (Histogram.new defaultBounds) populatedReadHistogram)
     (by decide)⟩

/-- Modelled from the spec: the per-request hedging policy capability.
can_retry decides whether hedging is permissible; clone_request produces a
second, independent copy of the request, `none` meaning the request cannot
be safely duplicated and hedging must not occur. -/
structure Policy (Req : Type) where
  can_retry : Req → Bool
  clone_request : Req → Option Req

/-- The marker request the test policy refuses to retry (tests/hedge.rs). -/
def NOT_RETRYABLE : String := "NOT_RETRYABLE"

/-- The marker request the test policy refuses to clone (tests/hedge.rs). -/
def NOT_CLONABLE : String := "NOT_CLONABLE"

/-- The test-suite's policy (tests/hedge.rs): every request may be retried
except NOT_RETRYABLE, and every request clones to itself except
NOT_CLONABLE. -/
def TestPolicy : Policy String where
  can_retry := fun req => req != NOT_RETRYABLE
  clone_request := fun req => if req = NOT_CLONABLE then none else some req

/-- Modelled from the spec: the externally visible events a single hedged
call reacts to: the clock advancing by t milliseconds, the original inner
call completing with a response, or the hedge inner call completing with a
response. -/
inductive Ev (Res : Type) where
  | advance (t : Nat)
  | origDone (r : Res)
  | hedgeDone (r : Res)

/-- Modelled from the spec: the in-flight state of one hedged call: the
request, the remaining hedge-delay timer (`none` when no timer is armed),
whether the hedge has been issued, the surfaced result, and the number of
inner-service calls issued so far. -/
structure CallState (Req Res : Type) where
  req : Req
  timer : Option Nat
  hedged : Bool
  result : Option Res
  calls : Nat

/-- Modelled from the spec (race protocol, spec section 4.4): a resolved
call ignores further events; the timer counts down on advance and, when it
fires, the policy gates issuing the hedge (both can_retry and
clone_request must pass) and the timer is disarmed either way, with no
further timer; the first completion of original or hedge resolves the
call; a hedge completion is only observable once a hedge was issued. -/
def stepCall {Req Res : Type} (p : Policy Req) (s : CallState Req Res) :
    Ev Res → CallState Req Res
  | .advance t =>
    match s.result with
    | some _ => s
    | none =>
      match s.timer with
      | none => s
      | some d =>
        if t < d then { s with timer := some (d - t) }
        else if p.can_retry s.req then
          match p.clone_request s.req with
          | some _ => { s with timer := none, hedged := true, calls := s.calls + 1 }
          | none => { s with timer := none }
        else { s with timer := none }
  | .origDone r =>
    match s.result with
    | some _ => s
    | none => { s with result := some r }
  | .hedgeDone r =>
    match s.result with
    | some _ => s
    | none => if s.hedged then { s with result := some r } else s

/-- Run a call state through a list of events, in order. -/
def runCall {Req Res : Type} (p : Policy Req) :
    CallState Req Res → List (Ev Res) → CallState Req Res
  | s, [] => s
  | s, e :: rest => runCall p (stepCall p s e) rest

/-- Modelled from the spec: the state of a fresh call: the original inner
call has been issued (one inner call so far), the hedge-delay timer is
armed with the read histogram's quantile (no timer when the quantile is
unknown), no hedge issued, no result yet. -/
def initCall {Req Res : Type} (q : ℚ) (hst : Histogram) (req : Req) :
    CallState Req Res :=
  { req := req, timer := hst.quantile q, hedged := false, result := none, calls := 1 }

/-- Modelled from the spec: the Hedge middleware owns the policy, the
latency quantile, the rotation period (milliseconds) and the shared
rotating histogram. -/
structure Hedge (Req : Type) where
  policy : Policy Req
  q : ℚ
  rotation_period : Nat
  latency_histogram : RotatingHistogram

/-- Modelled from the spec: Hedge.call issues the original inner call and
arms the hedge-delay timer from the read histogram's quantile. -/
def Hedge.call {Req Res : Type} (h : Hedge Req) (req : Req) : CallState Req Res :=
  initCall h.q h.latency_histogram.read req

/-- The first response of the original inner call in an event list, if any:
the result of a plain passthrough await of the original. -/
def firstOrig {Res : Type} : List (Ev Res) → Option Res
  | [] => none
  | .origDone r :: _ => some r
  | .advance _ :: rest => firstOrig rest
  | .hedgeDone _ :: rest => firstOrig rest

theorem runCall_cons {Req Res : Type} (p : Policy Req) (s : CallState Req Res)
    (e : Ev Res) (es : List (Ev Res)) :
    runCall p s (e :: es) = runCall p (stepCall p s e) es := rfl

theorem runCall_append {Req Res : Type} (p : Policy Req) (es1 es2 : List (Ev Res)) :
    ∀ s : CallState Req Res,
      runCall p s (es1 ++ es2) = runCall p (runCall p s es1) es2 := by
  induction es1 with
  | nil => intro s; rfl
  | cons e rest ih => intro s; exact ih (stepCall p s e)

theorem stepCall_resolved {Req Res : Type} (p : Policy Req) (s : CallState Req Res)
    (e : Ev Res) (r : Res) (h : s.result = some r) : stepCall p s e = s := by
  cases e <;> simp [stepCall, h]

theorem runCall_resolved {Req Res : Type} (p : Policy Req) (s : CallState Req Res)
    (es : List (Ev Res)) (r : Res) (h : s.result = some r) : runCall p s es = s := by
  induction es with
  | nil => rfl
  | cons e rest ih => rw [runCall_cons, stepCall_resolved p s e r h]; exact ih

theorem runCall_origDone_resolves {Req Res : Type} (p : Policy Req)
    (s : CallState Req Res) (r : Res) (suffix : List (Ev Res))
    (h : s.result = none) :
    runCall p s (Ev.origDone r :: suffix) = { s with result := some r } := by
  have hstep : stepCall p s (Ev.origDone r) = { s with result := some r } := by
    simp [stepCall, h]
  rw [runCall_cons, hstep]
  exact runCall_resolved p _ suffix r rfl

theorem runCall_hedgeDone_resolves {Req Res : Type} (p : Policy Req)
    (s : CallState Req Res) (r : Res) (suffix : List (Ev Res))
    (h : s.result = none) (hh : s.hedged = true) :
    runCall p s (Ev.hedgeDone r :: suffix) = { s with result := some r } := by
  have hstep : stepCall p s (Ev.hedgeDone r) = { s with result := some r } := by
    simp [stepCall, h, hh]
  rw [runCall_cons, hstep]
  exact runCall_resolved p _ suffix r rfl

theorem runCall_advances {Req Res : Type} (p : Policy Req) :
    ∀ (ts : List Nat) (s : CallState Req Res) (d : Nat),
      s.result = none → s.timer = some d → ts.sum < d →
      runCall p s (ts.map Ev.advance) = { s with timer := some (d - ts.sum) } := by
  intro ts
  induction ts with
  | nil =>
      intro s d hres ht _
      simp only [List.map_nil, List.sum_nil, Nat.sub_zero]
      rw [← ht]
      rfl
  | cons t ts ih =>
      intro s d hres ht hsum
      have hsum' : t + ts.sum < d := by simpa using hsum
      have hd : t < d := by omega
      have hstep : stepCall p s (Ev.advance t) = { s with timer := some (d - t) } := by
        simp [stepCall, hres, ht, hd]
      rw [List.map_cons, runCall_cons, hstep,
        ih { s with timer := some (d - t) } (d - t) hres rfl (by omega)]
      simp [Nat.sub_sub]

theorem stepCall_fire_hedge {Req Res : Type} (p : Policy Req)
    (s : CallState Req Res) (t d : Nat) (req2 : Req)
    (hres : s.result = none) (ht : s.timer = some d) (hfire : d ≤ t)
    (hretry : p.can_retry s.req = true)
    (hclone : p.clone_request s.req = some req2) :
    stepCall p s (Ev.advance t) =
      { s with timer := none, hedged := true, calls := s.calls + 1 } := by
  simp [stepCall, hres, ht, Nat.not_lt.mpr hfire, hretry, hclone]

/-- C1: if the original is still pending when the hedge-delay elapses and
the policy permits hedging (can_retry true and clone_request succeeds), a
second inner-service call is issued, and, when the hedge responds before
the original, the surfaced value is the hedge's response — whatever happens
afterwards. -/
theorem hedge_wins {Req Res : Type} (p : Policy Req) (q : ℚ) (hst : Histogram)
    (req req2 : Req) (d : Nat) (ts : List Nat) (t : Nat) (r : Res)
    (suffix : List (Ev Res))
    (hq : hst.quantile q = some d) (hts : ts.sum < d) (ht : d ≤ ts.sum + t)
    (hretry : p.can_retry req = true) (hclone : p.clone_request req = some req2) :
    (runCall p (initCall q hst req)
        (ts.map Ev.advance ++ Ev.advance t :: Ev.hedgeDone r :: suffix)).calls = 2 ∧
    (runCall p (initCall q hst req)
        (ts.map Ev.advance ++ Ev.advance t :: Ev.hedgeDone r :: suffix)).result = some r := by
  have h1 := runCall_advances p ts (@initCall Req Res q hst req) d rfl
    (by simp [initCall, hq]) hts
  have hstep := stepCall_fire_hedge p
    { @initCall Req Res q hst req with timer := some (d - ts.sum) }
    t (d - ts.sum) req2 rfl rfl (by omega) hretry hclone
  rw [runCall_append, h1, runCall_cons, hstep,
    runCall_hedgeDone_resolves p _ r suffix rfl rfl]
  exact ⟨rfl, rfl⟩

/-- Witness for C1: the test scenario hedge_hedge_completes_first — the
test policy, request "orig", the populated read histogram (hedge delay
quantile(0.9) = 10 ms), the clock advanced 10 ms, the hedge responding
"hedge-done": two inner calls, result "hedge-done". -/
theorem hedge_wins_witness :
    (runCall TestPolicy (initCall (9/10) populatedReadHistogram "orig")
        (([] : List Nat).map Ev.advance ++
          Ev.advance 10 :: Ev.hedgeDone "hedge-done" :: ([] : List (Ev String)))).calls = 2 ∧
    (runCall TestPolicy (initCall (9/10) populatedReadHistogram "orig")
        (([] : List Nat).map Ev.advance ++
          Ev.advance 10 :: Ev.hedgeDone "hedge-done" :: ([] : List (Ev String)))).result =
      some "hedge-done" :=
  hedge_wins TestPolicy (9/10) populatedReadHistogram "orig" "orig" 10 [] 10
    "hedge-done" [] populated_quantile_eq (by decide) (by decide)
    (by decide) (by decide)

/-- C2: if the original completes while the cumulative elapsed time is
still below the computed hedge-delay, no second inner call is ever issued
over the whole call lifetime — whatever events follow — and the surfaced
result is the original's response. -/
theorem completes_before_hedge {Req Res : Type} (p : Policy Req) (q : ℚ)
    (hst : Histogram) (req : Req) (d : Nat) (ts : List Nat) (r : Res)
    (suffix : List (Ev Res))
    (hq : hst.quantile q = some d) (hts : ts.sum < d) :
    (runCall p (initCall q hst req)
        (ts.map Ev.advance ++ Ev.origDone r :: suffix)).calls = 1 ∧
    (runCall p (initCall q hst req)
        (ts.map Ev.advance ++ Ev.origDone r :: suffix)).result = some r := by
  have h1 := runCall_advances p ts (@initCall Req Res q hst req) d rfl
    (by simp [initCall, hq]) hts
  rw [runCall_append, h1, runCall_origDone_resolves p _ r suffix rfl]
  exact ⟨rfl, rfl⟩

/-- Witness for C2: the test scenario completes_before_hedge — the test
policy, request "orig", hedge delay 10 ms, the original responding
"orig-done" at t = 0: exactly one inner call, result "orig-done". -/
theorem completes_before_hedge_witness :
    (runCall TestPolicy (initCall (9/10) populatedReadHistogram "orig")
        (([] : List Nat).map Ev.advance ++
          Ev.origDone "orig-done" :: ([] : List (Ev String)))).calls = 1 ∧
    (runCall TestPolicy (initCall (9/10) populatedReadHistogram "orig")
        (([] : List Nat).map Ev.advance ++
          Ev.origDone "orig-done" :: ([] : List (Ev String)))).result = some "orig-done" :=
  completes_before_hedge TestPolicy (9/10) populatedReadHistogram "orig" 10 []
    "orig-done" [] populated_quantile_eq (by decide)

/-- C3: once a hedge has been issued (hedge-delay elapsed, policy
permitting), if the original responds first the surfaced value is the
original's response; whatever the hedge later does (its result arriving in
the suffix) is discarded. -/
theorem orig_wins_after_hedge {Req Res : Type} (p : Policy Req) (q : ℚ)
    (hst : Histogram) (req req2 : Req) (d : Nat) (ts : List Nat) (t : Nat)
    (r : Res) (suffix : List (Ev Res))
    (hq : hst.quantile q = some d) (hts : ts.sum < d) (ht : d ≤ ts.sum + t)
    (hretry : p.can_retry req = true) (hclone : p.clone_request req = some req2) :
    (runCall p (initCall q hst req)
        (ts.map Ev.advance ++ Ev.advance t :: Ev.origDone r :: suffix)).calls = 2 ∧
    (runCall p (initCall q hst req)
        (ts.map Ev.advance ++ Ev.advance t :: Ev.origDone r :: suffix)).result = some r := by
  have h1 := runCall_advances p ts (@initCall Req Res q hst req) d rfl
    (by simp [initCall, hq]) hts
  have hstep := stepCall_fire_hedge p
    { @initCall Req Res q hst req with timer := some (d - ts.sum) }
    t (d - ts.sum) req2 rfl rfl (by omega) hretry hclone
  rw [runCall_append, h1, runCall_cons, hstep,
    runCall_origDone_resolves p _ r suffix rfl]
  exact ⟨rfl, rfl⟩

/-- Witness for C3: the test scenario hedge_orig_completes_first — hedge
issued after 10 ms, original responds "orig-done", the hedge's later
response "hedge-done" is discarded: result "orig-done" with two inner
calls. -/
theorem orig_wins_after_hedge_witness :
    (runCall TestPolicy (initCall (9/10) populatedReadHistogram "orig")
        (([] : List Nat).map Ev.advance ++
          Ev.advance 10 :: Ev.origDone "orig-done" ::
            (Ev.hedgeDone "hedge-done" :: ([] : List (Ev String))))).calls = 2 ∧
    (runCall TestPolicy (initCall (9/10) populatedReadHistogram "orig")
        (([] : List Nat).map Ev.advance ++
          Ev.advance 10 :: Ev.origDone "orig-done" ::
            (Ev.hedgeDone "hedge-done" :: ([] : List (Ev String))))).result =
      some "orig-done" :=
  orig_wins_after_hedge TestPolicy (9/10) populatedReadHistogram "orig" "orig" 10 [] 10
    "orig-done" [Ev.hedgeDone "hedge-done"] populated_quantile_eq
    (by decide) (by decide) (by decide) (by decide)

theorem runCall_gated {Req Res : Type} (p : Policy Req) :
    ∀ (es : List (Ev Res)) (s : CallState Req Res),
      s.result = none → s.hedged = false →
      (p.can_retry s.req = false ∨ p.clone_request s.req = none) →
      (runCall p s es).calls = s.calls ∧ (runCall p s es).hedged = false ∧
      (runCall p s es).result = firstOrig es := by
  intro es
  induction es with
  | nil => intro s hres hh _; exact ⟨rfl, hh, hres⟩
  | cons e rest ih =>
      intro s hres hh hgate
      cases e with
      | advance t =>
          rw [runCall_cons]
          cases htm : s.timer with
          | none =>
              have hstep : stepCall p s (Ev.advance t) = s := by
                simp [stepCall, hres, htm]
              rw [hstep]
              exact ih s hres hh hgate
          | some d =>
              by_cases hd : t < d
              · have hstep : stepCall p s (Ev.advance t) =
                    { s with timer := some (d - t) } := by
                  simp [stepCall, hres, htm, hd]
                rw [hstep]
                exact ih _ hres hh hgate
              · have hstep : stepCall p s (Ev.advance t) = { s with timer := none } := by
                  rcases hgate with hg | hg
                  · simp [stepCall, hres, htm, hd, hg]
                  · simp [stepCall, hres, htm, hd, hg]
                rw [hstep]
                exact ih _ hres hh hgate
      | origDone r =>
          have hstep : stepCall p s (Ev.origDone r) = { s with result := some r } := by
            simp [stepCall, hres]
          rw [runCall_cons, hstep, runCall_resolved p _ rest r rfl]
          exact ⟨rfl, hh, rfl⟩
      | hedgeDone r =>
          have hstep : stepCall p s (Ev.hedgeDone r) = s := by
            simp [stepCall, hres, hh]
          rw [runCall_cons, hstep]
          exact ih s hres hh hgate

/-- C4: when the policy refuses — can_retry false, or can_retry true but
clone_request none — no second inner call is ever observed under any event
sequence, even when the hedge-delay elapses while the original is pending,
and the call's result is exactly the original's eventual response (a plain
passthrough of the first original completion). -/
theorem policy_gating {Req Res : Type} (p : Policy Req) (q : ℚ) (hst : Histogram)
    (req : Req) (es : List (Ev Res))
    (hgate : p.can_retry req = false ∨ p.clone_request req = none) :
    (runCall p (initCall q hst req) es).calls = 1 ∧
    (runCall p (initCall q hst req) es).hedged = false ∧
    (runCall p (initCall q hst req) es).result = firstOrig es :=
  runCall_gated p es (initCall q hst req) rfl rfl hgate

/-- Witness for C4: the test scenarios request_not_retyable and
request_not_clonable — the test policy with the NOT_RETRYABLE (resp.
NOT_CLONABLE) request, the hedge-delay elapsing at 10 ms while the original
is pending, the original then responding "orig-done": one inner call only,
result "orig-done", in both scenarios. -/
theorem policy_gating_witness :
    ((runCall TestPolicy (initCall (9/10) populatedReadHistogram NOT_RETRYABLE)
        [Ev.advance 10, Ev.origDone "orig-done"]).calls = 1 ∧
     (runCall TestPolicy (initCall (9/10) populatedReadHistogram NOT_RETRYABLE)
        [Ev.advance 10, Ev.origDone "orig-done"]).hedged = false ∧
     (runCall TestPolicy (initCall (9/10) populatedReadHistogram NOT_RETRYABLE)
        [Ev.advance 10, Ev.origDone "orig-done"]).result =
       firstOrig [Ev.advance 10, Ev.origDone "orig-done"]) ∧
    ((runCall TestPolicy (initCall (9/10) populatedReadHistogram NOT_CLONABLE)
        [Ev.advance 10, Ev.origDone "orig-done"]).calls = 1 ∧
     (runCall TestPolicy (initCall (9/10) populatedReadHistogram NOT_CLONABLE)
        [Ev.advance 10, Ev.origDone "orig-done"]).hedged = false ∧
     (runCall TestPolicy (initCall (9/10) populatedReadHistogram NOT_CLONABLE)
        [Ev.advance 10, Ev.origDone "orig-done"]).result =
       firstOrig [Ev.advance 10, Ev.origDone "orig-done"]) :=
  ⟨policy_gating TestPolicy (9/10) populatedReadHistogram NOT_RETRYABLE
      [Ev.advance 10, Ev.origDone "orig-done"] (Or.inl (by decide)),
   policy_gating TestPolicy (9/10) populatedReadHistogram NOT_CLONABLE
      [Ev.advance 10, Ev.origDone "orig-done"] (Or.inr (by decide))⟩

theorem runCall_passthrough {Req Res : Type} (p : Policy Req) :
    ∀ (es : List (Ev Res)) (s : CallState Req Res),
      s.result = none → s.hedged = false → s.timer = none →
      (runCall p s es).calls = s.calls ∧
      (runCall p s es).result = firstOrig es := by
  intro es
  induction es with
  | nil => intro s hres _ _; exact ⟨rfl, hres⟩
  | cons e rest ih =>
      intro s hres hh htm
      cases e with
      | advance t =>
          have hstep : stepCall p s (Ev.advance t) = s := by
            simp [stepCall, hres, htm]
          rw [runCall_cons, hstep]
          exact ih s hres hh htm
      | origDone r =>
          have hstep : stepCall p s (Ev.origDone r) = { s with result := some r } := by
            simp [stepCall, hres]
          rw [runCall_cons, hstep, runCall_resolved p _ rest r rfl]
          exact ⟨rfl, rfl⟩
      | hedgeDone r =>
          have hstep : stepCall p s (Ev.hedgeDone r) = s := by
            simp [stepCall, hres, hh]
          rw [runCall_cons, hstep]
          exact ih s hres hh htm

/-- C6: when the read histogram holds zero samples, quantile returns the
unknown sentinel (`none`), the fresh call arms no hedge timer, and under
any event sequence the Hedge issues no second inner call: the call is a
plain passthrough await of the original — its result is exactly the first
original completion. -/
theorem unknown_quantile_passthrough {Req Res : Type} (p : Policy Req) (q : ℚ)
    (hst : Histogram) (req : Req) (h0 : hst.totalCount = 0) :
    hst.quantile q = none ∧
    (@initCall Req Res q hst req).timer = none ∧
    ∀ es : List (Ev Res),
      (runCall p (initCall q hst req) es).calls = 1 ∧
      (runCall p (initCall q hst req) es).result = firstOrig es := by
  have hq : hst.quantile q = none := by simp [Histogram.quantile, h0]
  refine ⟨hq, by simp [initCall, hq], fun es => ?_⟩
  exact runCall_passthrough p es (initCall q hst req) rfl rfl (by simp [initCall, hq])

/-- Witness for C6: a freshly constructed (empty) histogram, the test
policy, and the trace in which the hedge-delay would long have elapsed
before the original responds: one inner call, the original's response. -/
theorem unknown_quantile_passthrough_witness :
    (Histogram.new defaultBounds).totalCount = 0 ∧
    ((Histogram.new defaultBounds).quantile (9/10) = none ∧
     (@initCall String String (9/10) (Histogram.new defaultBounds) "orig").timer = none ∧
     ((runCall TestPolicy (initCall (9/10) (Histogram.new defaultBounds) "orig")
        [Ev.advance 1000, Ev.origDone "orig-done"]).calls = 1 ∧
      (runCall TestPolicy (initCall (9/10) (Histogram.new defaultBounds) "orig")
        [Ev.advance 1000, Ev.origDone "orig-done"]).result =
        firstOrig [Ev.advance 1000, Ev.origDone "orig-done"])) :=
  ⟨by decide,
   have h := @unknown_quantile_passthrough String String TestPolicy (9/10)
     (Histogram.new defaultBounds) "orig" (by decide)
   ⟨h.1, h.2.1, h.2.2 [Ev.advance 1000, Ev.origDone "orig-done"]⟩⟩

/-- The bucket upper bound an add of duration d targets within the given
bounds: the smallest bound ≥ d, or the largest bound when d exceeds all. -/
def bucketFor : List Nat → Nat → Option Nat
  | [], _ => none
  | [b], _ => some b
  | b :: b2 :: rest, d => if d ≤ b then some b else bucketFor (b2 :: rest) d

/-- The upper bound of the last bucket holding a nonzero count. -/
def maxNonzero : List (Nat × Nat) → Option Nat
  | [] => none
  | (b, c) :: rest =>
    match maxNonzero rest with
    | some b2 => some b2
    | none => if c = 0 then none else some b

theorem addAux_map_fst : ∀ (l : List (Nat × Nat)) (d : Nat),
    (addAux l d).map Prod.fst = l.map Prod.fst
  | [], _ => rfl
  | [(b, c)], _ => rfl
  | (b, c) :: p :: rest, d => by
      by_cases hd : d ≤ b
      · simp [addAux, hd]
      · simp [addAux, hd, addAux_map_fst (p :: rest) d]

theorem maxNonzero_eq_none_iff : ∀ l : List (Nat × Nat),
    maxNonzero l = none ↔ sumCounts l = 0
  | [] => by simp [maxNonzero, sumCounts]
  | (b, c) :: rest => by
      have ih := maxNonzero_eq_none_iff rest
      cases hm : maxNonzero rest with
      | some b2 =>
          have hsum : sumCounts rest ≠ 0 := by
            intro h
            rw [ih.mpr h] at hm
            exact Option.noConfusion hm
          refine iff_of_false (by simp [maxNonzero, hm]) ?_
          simp only [sumCounts, List.map_cons, List.sum_cons]
          intro h
          exact hsum (by simp only [sumCounts] at *; omega)
      | none =>
          have hz : sumCounts rest = 0 := ih.mp hm
          simp only [maxNonzero, hm, sumCounts, List.map_cons, List.sum_cons]
          by_cases hc : c = 0
          · simp [hc, hz, sumCounts] at *
            omega
          · simp only [if_neg hc]
            refine iff_of_false (by simp) ?_
            simp only [sumCounts] at hz
            omega

theorem maxNonzero_mem : ∀ (l : List (Nat × Nat)) (b : Nat),
    maxNonzero l = some b → b ∈ l.map Prod.fst
  | [], b => by intro h; simp [maxNonzero] at h
  | (a, c) :: rest, b => by
      intro h
      cases hm : maxNonzero rest with
      | some b2 =>
          simp only [maxNonzero, hm] at h
          have hb : b2 = b := by simpa using h
          subst hb
          exact List.mem_cons_of_mem _ (maxNonzero_mem rest b2 hm)
      | none =>
          simp only [maxNonzero, hm] at h
          by_cases hc : c = 0
          · simp [hc] at h
          · simp only [if_neg hc] at h
            have ha : a = b := by simpa using h
            subst ha
            simp

theorem quantileAux_one : ∀ (l : List (Nat × Nat)) (acc total : Nat),
    acc + sumCounts l = total → sumCounts l ≠ 0 →
    quantileAux total 1 acc l = maxNonzero l
  | [] => by
      intro acc total _ hne
      simp [sumCounts] at hne
  | (b, c) :: rest => by
      intro acc total htot hne
      simp only [sumCounts, List.map_cons, List.sum_cons] at htot hne
      have htotpos : 0 < total := by omega
      by_cases hz : sumCounts rest = 0
      · have hc : c ≠ 0 := by simp only [sumCounts] at hz; omega
        have hcond : (1 : ℚ) ≤ ((acc : ℚ) + (c : ℚ)) / (total : ℚ) := by
          rw [one_le_div (by exact_mod_cast htotpos)]
          have h2 : total ≤ acc + c := by simp only [sumCounts] at hz; omega
          exact_mod_cast h2
        simp [quantileAux, hcond, maxNonzero,
          (maxNonzero_eq_none_iff rest).mpr hz, hc]
      · have hlt : acc + c < total := by
          simp only [sumCounts] at hz; omega
        have hcond : ¬ ((1 : ℚ) ≤ ((acc : ℚ) + (c : ℚ)) / (total : ℚ)) := by
          rw [one_le_div (by exact_mod_cast htotpos)]
          exact_mod_cast Nat.not_le.mpr hlt
        have ih := quantileAux_one rest (acc + c) total (by simp only [sumCounts] at *; omega) hz
        obtain ⟨b2, hb2⟩ : ∃ b2, maxNonzero rest = some b2 := by
          cases hm : maxNonzero rest with
          | none => exact absurd ((maxNonzero_eq_none_iff rest).mp hm) hz
          | some b2 => exact ⟨b2, rfl⟩
        simp [quantileAux, hcond, maxNonzero, ih, hb2]

theorem quantile_one (h : Histogram) (hne : h.totalCount ≠ 0) :
    h.quantile 1 = maxNonzero h.buckets := by
  simp only [Histogram.quantile, if_neg hne]
  exact quantileAux_one h.buckets 0 h.totalCount (by simp [Histogram.totalCount]) hne

theorem maxNonzero_cons (b c : Nat) (rest : List (Nat × Nat)) :
    maxNonzero ((b, c) :: rest) =
      match maxNonzero rest with
      | some b2 => some b2
      | none => if c = 0 then none else some b := rfl

theorem addAux_cons2 (b c : Nat) (p : Nat × Nat) (rest : List (Nat × Nat)) (d : Nat) :
    addAux ((b, c) :: p :: rest) d =
      if d ≤ b then (b, c + 1) :: p :: rest
      else (b, c) :: addAux (p :: rest) d := rfl

theorem bucketFor_cons2 (b b2 : Nat) (rest : List Nat) (d : Nat) :
    bucketFor (b :: b2 :: rest) d =
      if d ≤ b then some b else bucketFor (b2 :: rest) d := rfl

theorem maxNonzero_addAux_isSome : ∀ (l : List (Nat × Nat)) (d : Nat), l ≠ [] →
    ∃ b1, maxNonzero (addAux l d) = some b1
  | [], _ => by intro h; exact absurd rfl h
  | [(b, c)], d => by
      intro _
      exact ⟨b, by simp [addAux, maxNonzero]⟩
  | (b, c) :: p :: rest, d => by
      intro _
      by_cases hd : d ≤ b
      · cases hm : maxNonzero (p :: rest) with
        | some b2 =>
            refine ⟨b2, ?_⟩
            rw [addAux_cons2, if_pos hd]
            obtain ⟨pb, pc⟩ := p
            rw [maxNonzero_cons, hm]
        | none =>
            refine ⟨b, ?_⟩
            rw [addAux_cons2, if_pos hd]
            obtain ⟨pb, pc⟩ := p
            rw [maxNonzero_cons, hm]
            simp
      · obtain ⟨b1, hb1⟩ := maxNonzero_addAux_isSome (p :: rest) d (by simp)
        refine ⟨b1, ?_⟩
        rw [addAux_cons2, if_neg hd, maxNonzero_cons, hb1]

theorem maxNonzero_addAux_mono : ∀ (l : List (Nat × Nat)) (d b0 : Nat),
    List.Pairwise (· < ·) (l.map Prod.fst) → maxNonzero l = some b0 →
    ∃ b1, maxNonzero (addAux l d) = some b1 ∧ b0 ≤ b1
  | [], d, b0 => by intro _ h; simp [maxNonzero] at h
  | [(b, c)], d, b0 => by
      intro _ h
      rw [maxNonzero_cons] at h
      simp only [maxNonzero] at h
      by_cases hc : c = 0
      · simp [hc] at h
      · simp only [if_neg hc] at h
        have hb : b = b0 := by simpa using h
        subst hb
        exact ⟨b, by simp [addAux, maxNonzero], le_refl b⟩
  | (b, c) :: p :: rest, d, b0 => by
      intro hpw h
      have hpwt : List.Pairwise (· < ·) ((p :: rest).map Prod.fst) :=
        (List.pairwise_cons.mp hpw).2
      rw [maxNonzero_cons] at h
      by_cases hd : d ≤ b
      · cases hm : maxNonzero (p :: rest) with
        | some b2 =>
            rw [hm] at h
            have hb : b2 = b0 := by simpa using h
            subst hb
            refine ⟨b2, ?_, le_refl b2⟩
            rw [addAux_cons2, if_pos hd, maxNonzero_cons, hm]
        | none =>
            rw [hm] at h
            simp only at h
            by_cases hc : c = 0
            · simp [hc] at h
            · simp only [if_neg hc] at h
              have hb : b = b0 := by simpa using h
              subst hb
              refine ⟨b, ?_, le_refl b⟩
              rw [addAux_cons2, if_pos hd, maxNonzero_cons, hm]
              simp
      · cases hm : maxNonzero (p :: rest) with
        | some b2 =>
            rw [hm] at h
            have hb : b2 = b0 := by simpa using h
            subst hb
            obtain ⟨b1, hb1, hle⟩ := maxNonzero_addAux_mono (p :: rest) d b2 hpwt hm
            refine ⟨b1, ?_, hle⟩
            rw [addAux_cons2, if_neg hd, maxNonzero_cons, hb1]
        | none =>
            rw [hm] at h
            simp only at h
            by_cases hc : c = 0
            · simp [hc] at h
            · simp only [if_neg hc] at h
              have hb : b = b0 := by simpa using h
              subst hb
              obtain ⟨b1, hb1⟩ := maxNonzero_addAux_isSome (p :: rest) d (by simp)
              have hmem : b1 ∈ (p :: rest).map Prod.fst := by
                have h2 := maxNonzero_mem (addAux (p :: rest) d) b1 hb1
                rwa [addAux_map_fst] at h2
              have hlt : b < b1 := (List.pairwise_cons.mp hpw).1 b1 hmem
              refine ⟨b1, ?_, le_of_lt hlt⟩
              rw [addAux_cons2, if_neg hd, maxNonzero_cons, hb1]

theorem bucketFor_le_maxNonzero_addAux : ∀ (l : List (Nat × Nat)) (d bd : Nat),
    List.Pairwise (· < ·) (l.map Prod.fst) →
    bucketFor (l.map Prod.fst) d = some bd →
    ∃ b1, maxNonzero (addAux l d) = some b1 ∧ bd ≤ b1
  | [], d, bd => by intro _ h; simp [bucketFor] at h
  | [(b, c)], d, bd => by
      intro _ h
      have hb : b = bd := by simpa [bucketFor] using h
      subst hb
      exact ⟨b, by simp [addAux, maxNonzero], le_refl b⟩
  | (b, c) :: (b2, c2) :: rest, d, bd => by
      intro hpw h
      have hpwt : List.Pairwise (· < ·) (((b2, c2) :: rest).map Prod.fst) :=
        (List.pairwise_cons.mp hpw).2
      simp only [List.map_cons] at h
      rw [bucketFor_cons2] at h
      by_cases hd : d ≤ b
      · rw [if_pos hd] at h
        have hb : b = bd := by simpa using h
        subst hb
        cases hm : maxNonzero ((b2, c2) :: rest) with
        | some bx =>
            have hmem : bx ∈ ((b2, c2) :: rest).map Prod.fst :=
              maxNonzero_mem _ bx hm
            have hlt : b < bx := (List.pairwise_cons.mp hpw).1 bx hmem
            refine ⟨bx, ?_, le_of_lt hlt⟩
            rw [addAux_cons2, if_pos hd, maxNonzero_cons, hm]
        | none =>
            refine ⟨b, ?_, le_refl b⟩
            rw [addAux_cons2, if_pos hd, maxNonzero_cons, hm]
            simp
      · rw [if_neg hd] at h
        obtain ⟨b1, hb1, hle⟩ :=
          bucketFor_le_maxNonzero_addAux ((b2, c2) :: rest) d bd hpwt (by simpa using h)
        refine ⟨b1, ?_, hle⟩
        rw [addAux_cons2, if_neg hd, maxNonzero_cons, hb1]

theorem buckets_addAll (ds : List Nat) : ∀ h : Histogram,
    (h.addAll ds).buckets = ds.foldl addAux h.buckets := by
  induction ds with
  | nil => intro h; rfl
  | cons d ds ih =>
      intro h
      show ((h.add d).addAll ds).buckets = ds.foldl addAux (addAux h.buckets d)
      exact ih (h.add d)

theorem map_fst_foldl_addAux (ds : List Nat) : ∀ l : List (Nat × Nat),
    (ds.foldl addAux l).map Prod.fst = l.map Prod.fst := by
  induction ds with
  | nil => intro l; rfl
  | cons d ds ih =>
      intro l
      rw [List.foldl_cons, ih (addAux l d), addAux_map_fst]

theorem maxNonzero_foldl_mono (ds : List Nat) : ∀ (l : List (Nat × Nat)) (b0 : Nat),
    List.Pairwise (· < ·) (l.map Prod.fst) → maxNonzero l = some b0 →
    ∃ b1, maxNonzero (ds.foldl addAux l) = some b1 ∧ b0 ≤ b1 := by
  induction ds with
  | nil => intro l b0 _ h; exact ⟨b0, h, le_refl b0⟩
  | cons d ds ih =>
      intro l b0 hpw h
      obtain ⟨b2, hb2, hle2⟩ := maxNonzero_addAux_mono l d b0 hpw h
      obtain ⟨b1, hb1, hle1⟩ := ih (addAux l d) b2
        (by rwa [addAux_map_fst]) hb2
      exact ⟨b1, hb1, le_trans hle2 hle1⟩

theorem mem_bucketFor_le_foldl (ds : List Nat) : ∀ (l : List (Nat × Nat)) (d bd : Nat),
    List.Pairwise (· < ·) (l.map Prod.fst) → d ∈ ds →
    bucketFor (l.map Prod.fst) d = some bd →
    ∃ b1, maxNonzero (ds.foldl addAux l) = some b1 ∧ bd ≤ b1 := by
  induction ds with
  | nil => intro l d bd _ hmem _; exact absurd hmem (List.not_mem_nil d)
  | cons d0 ds ih =>
      intro l d bd hpw hmem hbf
      rw [List.foldl_cons]
      rcases List.mem_cons.mp hmem with heq | hmem2
      · subst heq
        obtain ⟨b2, hb2, hle2⟩ := bucketFor_le_maxNonzero_addAux l d bd hpw hbf
        obtain ⟨b1, hb1, hle1⟩ := maxNonzero_foldl_mono ds (addAux l d) b2
          (by rwa [addAux_map_fst]) hb2
        exact ⟨b1, hb1, le_trans hle2 hle1⟩
      · exact ih (addAux l d0) d bd (by rwa [addAux_map_fst]) hmem2
          (by rwa [addAux_map_fst])

theorem new_map_fst (bounds : List Nat) :
    (Histogram.new bounds).buckets.map Prod.fst = bounds := by
  simp only [Histogram.new, List.map_map]
  have hcomp : (Prod.fst ∘ fun b => ((b : Nat), (0 : Nat))) = id := rfl
  rw [hcomp, List.map_id]

/-- C8: for any sequence of add calls starting from a fresh histogram over
strictly increasing bucket bounds, quantile(1.0) is defined and is at least
the upper bound of the bucket containing every recorded sample — in
particular the largest — and adding a further sample whose bucket is at or
above the current quantile(1.0) bucket keeps quantile(1.0) defined and
non-decreasing. -/
theorem histogram_monotonicity (bounds : List Nat)
    (hb : List.Pairwise (· < ·) bounds) (ds : List Nat) :
    (∀ d ∈ ds, ∀ bd, bucketFor bounds d = some bd →
       ∃ b, ((Histogram.new bounds).addAll ds).quantile 1 = some b ∧ bd ≤ b) ∧
    (∀ d2 b bd2, ((Histogram.new bounds).addAll ds).quantile 1 = some b →
       bucketFor bounds d2 = some bd2 → b ≤ bd2 →
       ∃ b2, (((Histogram.new bounds).addAll ds).add d2).quantile 1 = some b2 ∧
         b ≤ b2) := by
  have hpw : List.Pairwise (· < ·) ((Histogram.new bounds).buckets.map Prod.fst) := by
    rwa [new_map_fst]
  constructor
  · intro d hd bd hbf
    obtain ⟨b1, hmax, hle⟩ := mem_bucketFor_le_foldl ds (Histogram.new bounds).buckets
      d bd hpw hd (by rwa [new_map_fst])
    have hne : ((Histogram.new bounds).addAll ds).totalCount ≠ 0 := by
      rw [Histogram.totalCount, buckets_addAll]
      intro h0
      rw [(maxNonzero_eq_none_iff _).mpr h0] at hmax
      exact Option.noConfusion hmax
    refine ⟨b1, ?_, hle⟩
    rw [quantile_one _ hne, buckets_addAll]
    exact hmax
  · intro d2 b bd2 hq hbf hle
    have hne : ((Histogram.new bounds).addAll ds).totalCount ≠ 0 := by
      intro h0
      rw [Histogram.quantile, if_pos h0] at hq
      exact Option.noConfusion hq
    have hmax : maxNonzero (((Histogram.new bounds).addAll ds).buckets) = some b := by
      rw [← quantile_one _ hne]
      exact hq
    have hpw2 : List.Pairwise (· < ·)
        ((((Histogram.new bounds).addAll ds).buckets).map Prod.fst) := by
      rw [buckets_addAll, map_fst_foldl_addAux, new_map_fst]
      exact hb
    obtain ⟨b2, hb2, hleb⟩ := maxNonzero_addAux_mono
      (((Histogram.new bounds).addAll ds).buckets) d2 b hpw2 hmax
    have hne2 : (((Histogram.new bounds).addAll ds).add d2).totalCount ≠ 0 := by
      rw [Histogram.totalCount]
      intro h0
      have h0x : sumCounts (addAux ((Histogram.new bounds).addAll ds).buckets d2) = 0 := h0
      rw [(maxNonzero_eq_none_iff _).mpr h0x] at hb2
      exact Option.noConfusion hb2
    refine ⟨b2, ?_, hleb⟩
    rw [quantile_one _ hne2]
    exact hb2

/-- Witness for C8: over the default bounds, after adding samples 1 ms and
10 ms, quantile(1.0) is at least the 10 ms bucket, and it stays defined and
non-decreasing after adding a further sample in the top (10000 ms)
bucket. -/
theorem histogram_monotonicity_witness :
    List.Pairwise (· < ·) defaultBounds ∧
    (∃ b, ((Histogram.new defaultBounds).addAll [1, 10]).quantile 1 = some b ∧
      10 ≤ b) ∧
    (∃ b2, (((Histogram.new defaultBounds).addAll [1, 10]).add 10000).quantile 1 =
      some b2 ∧ 10 ≤ b2) := by
  have h := histogram_monotonicity defaultBounds (by decide) [1, 10]
  refine ⟨by decide, h.1 10 (by decide) 10 (by decide), ?_⟩
  have hq10 : ((Histogram.new defaultBounds).addAll [1, 10]).quantile 1 = some 10 := by
    have hbk : ((Histogram.new defaultBounds).addAll [1, 10]).buckets =
        [(1, 1), (10, 1), (100, 0), (1000, 0), (10000, 0)] := by decide
    simp only [Histogram.quantile, Histogram.totalCount, hbk, sumCounts]
    norm_num [quantileAux]
  exact h.2 10000 10 10000 hq10 (by decide) (by decide)

/-- Rust's std::time::Duration: whole seconds plus subsecond nanoseconds
(subsec_nanos < 10^9 for well-formed values). -/
structure Duration where
  secs : Nat
  subsec_nanos : Nat
deriving DecidableEq

/-- Rendering of an f64 value (src/timeout.rs computes subsec_ms in f64).
The arithmetic is modelled exactly over ℚ; an integer-valued float prints
with no decimal point, as Rust's Display for f64 does, and a non-integer
value is rendered as numerator/denominator (the claims only constrain
integer-valued outputs). -/
def ratStr (q : ℚ) : String :=
  if q.den = 1 then toString q.num
  else toString q.num ++ "/" ++ toString q.den

/-- src/timeout.rs HumanDuration: a duration which pretty-prints via the
Display impl at the bottom of the file. -/
structure HumanDuration where
  d : Duration

/-- src/timeout.rs, impl fmt::Display for HumanDuration: secs = as_secs(),
subsec_ms = subsec_nanos as f64 / 1_000_000; zero seconds prints
"{subsec_ms}ms", otherwise "{secs as f64 + subsec_ms}s" — the milliseconds
are added to the seconds as whole units. -/
def HumanDuration.display (h : HumanDuration) : String :=
  let secs := h.d.secs
  let subsec_ms : ℚ := (h.d.subsec_nanos : ℚ) / 1000000
  if secs = 0 then ratStr subsec_ms ++ "ms"
  else ratStr ((secs : ℚ) + subsec_ms) ++ "s"

/-- src/timeout.rs Timeout: a timeout that wraps an underlying operation,
with a configured duration and a name. -/
structure Timeout (T : Type) where
  inner : T
  duration : Duration
  name : String

/-- src/timeout.rs Timeout::new: wraps inner with the default name
"operation". -/
def Timeout.new {T : Type} (inner : T) (duration : Duration) : Timeout T :=
  { inner := inner, duration := duration, name := "operation" }

/-- src/timeout.rs Timeout::named: replaces the name. -/
def Timeout.named {T : Type} (t : Timeout T) (n : String) : Timeout T :=
  { t with name := n }

/-- tokio's DeadlineError as src/timeout.rs discriminates it: is_timer()
(the timer itself failed, carrying a timer error rendered as a string),
is_elapsed() (the deadline passed before the wrapped operation completed),
or the inner operation's own error. -/
inductive DeadlineError (E : Type) where
  | timerFailed (err : String)
  | elapsed
  | inner (e : E)

/-- src/timeout.rs TimeoutErrorKind. -/
inductive TimeoutErrorKind (E : Type) where
  | Timeout (d : Duration)
  | Error (e : E)
  | Timer (err : String)

/-- src/timeout.rs TimeoutError: a named error with a kind. -/
structure TimeoutError (E : Type) where
  name : String
  kind : TimeoutErrorKind E

/-- src/timeout.rs Timeout::error: wraps an inner-service error. -/
def Timeout.error {T E : Type} (t : Timeout T) (e : E) : TimeoutError E :=
  { name := t.name, kind := TimeoutErrorKind.Error e }

/-- src/timeout.rs Timeout::deadline_error: a timer error maps to the Timer
kind, an elapsed deadline to the Timeout kind carrying the wrapper's
configured duration, and anything else to the Error kind carrying the inner
error. -/
def Timeout.deadline_error {T E : Type} (t : Timeout T) (error : DeadlineError E) :
    TimeoutError E :=
  match error with
  | .timerFailed err => { name := t.name, kind := TimeoutErrorKind.Timer err }
  | .elapsed => { name := t.name, kind := TimeoutErrorKind.Timeout t.duration }
  | .inner e => { name := t.name, kind := TimeoutErrorKind.Error e }

/-- src/timeout.rs, impl fmt::Display for TimeoutError: the Timeout kind
prints "{name} timed out after {HumanDuration(duration)}", the Timer kind
prints "timer failed: {err}", and the Error kind prints as the inner error
(whose Display is the parameter dispE). -/
def TimeoutError.display {E : Type} (dispE : E → String) (e : TimeoutError E) :
    String :=
  match e.kind with
  | .Timeout d => e.name ++ " timed out after " ++ HumanDuration.display ⟨d⟩
  | .Timer err => "timer failed: " ++ err
  | .Error err => dispE err

/-- C9: when the deadline elapses before the wrapped operation completes
the error is a Timeout-kind TimeoutError carrying the wrapper's configured
duration and displaying as the wrapper's name, " timed out after ", and the
human-formatted duration; a failure of the wrapped operation itself is
carried through unchanged as an Error-kind TimeoutError displayed as the
inner error. -/
theorem timeout_deadline_error_spec {T E : Type} (t : Timeout T) (e : E)
    (dispE : E → String) :
    t.deadline_error (DeadlineError.elapsed : DeadlineError E) =
      { name := t.name, kind := TimeoutErrorKind.Timeout t.duration } ∧
    TimeoutError.display dispE (t.deadline_error (DeadlineError.elapsed : DeadlineError E)) =
      t.name ++ " timed out after " ++ HumanDuration.display ⟨t.duration⟩ ∧
    t.deadline_error (DeadlineError.inner e) =
      { name := t.name, kind := TimeoutErrorKind.Error e } ∧
    TimeoutError.display dispE (t.deadline_error (DeadlineError.inner e)) = dispE e :=
  ⟨rfl, rfl, rfl, rfl⟩

/-- C10: HumanDuration's display: with zero whole seconds it is the
subsecond nanoseconds divided by 10^6 followed by "ms"; with at least one
whole second it is the whole-second count plus the subsecond milliseconds
added as whole units — not divided by 1000 — followed by "s", so one second
plus 500 ms renders as "501s", not "1.5s". -/
theorem humanDuration_display_spec (d : Duration) :
    (d.secs = 0 →
      HumanDuration.display ⟨d⟩ = ratStr ((d.subsec_nanos : ℚ) / 1000000) ++ "ms") ∧
    (d.secs ≠ 0 →
      HumanDuration.display ⟨d⟩ =
        ratStr ((d.secs : ℚ) + (d.subsec_nanos : ℚ) / 1000000) ++ "s") ∧
    HumanDuration.display ⟨Duration.mk 1 500000000⟩ = "501s" ∧
    HumanDuration.display ⟨Duration.mk 1 500000000⟩ ≠ "1.5s" := by
  refine ⟨fun h => by simp [HumanDuration.display, h], fun h => by simp [HumanDuration.display, h], ?_, ?_⟩
  · have hval : ((1 : ℕ) : ℚ) + ((500000000 : ℕ) : ℚ) / 1000000 = ((501 : ℤ) : ℚ) := by
      norm_num
    show ratStr (((1 : ℕ) : ℚ) + ((500000000 : ℕ) : ℚ) / 1000000) ++ "s" = "501s"
    rw [hval]
    rfl
  · have h501 : HumanDuration.display ⟨Duration.mk 1 500000000⟩ = "501s" := by
      have hval : ((1 : ℕ) : ℚ) + ((500000000 : ℕ) : ℚ) / 1000000 = ((501 : ℤ) : ℚ) := by
        norm_num
      show ratStr (((1 : ℕ) : ℚ) + ((500000000 : ℕ) : ℚ) / 1000000) ++ "s" = "501s"
      rw [hval]
      rfl
    rw [h501]
    decide

/-- Witness for C10: both branches of the display at concrete durations —
2 ms with zero seconds prints as milliseconds, and 1 s 500 ms prints as
"501s". -/
theorem humanDuration_display_spec_witness :
    HumanDuration.display ⟨Duration.mk 0 2000000⟩ =
      ratStr (((2000000 : Nat) : ℚ) / 1000000) ++ "ms" ∧
    HumanDuration.display ⟨Duration.mk 1 500000000⟩ =
      ratStr (((1 : Nat) : ℚ) + ((500000000 : Nat) : ℚ) / 1000000) ++ "s" ∧
    HumanDuration.display ⟨Duration.mk 1 500000000⟩ = "501s" :=
  ⟨(humanDuration_display_spec (Duration.mk 0 2000000)).1 rfl,
   (humanDuration_display_spec (Duration.mk 1 500000000)).2.1 (by decide),
   (humanDuration_display_spec (Duration.mk 1 500000000)).2.2.1⟩
